import Mathlib

/-!
Harris corner detection: the non-maximum-suppression loop.

A shallow embedding of the nested pixel scan of `detKeypointsHarris`
(`src/matching2D_Student.cpp`, lines 101-177).  The library calls that build
the response matrix (`cv::cornerHarris`, `cv::normalize`) are outside the
embedding: the normalised response matrix `dst_norm` is the input of the scan.

Modelling conventions
* `dst_norm` is a `CV_32FC1` matrix.  A finite `float` is a rational number, so
  a cell is a `ℚ`; the C++ conversion `(int) x` is truncation toward zero
  (`castInt`).
* `cv::Mat::at` has the precondition that the index is inside the matrix (it is
  asserted in debug builds and unchecked otherwise, where an out-of-range read
  is undefined behaviour).  `Mat.at` returns `none` outside the matrix and the
  scan propagates it: `none` means "the run performed an out-of-range read".
* `cv::KeyPoint` carries `pt.x`, `pt.y`, `size` and `response`; the loop stores
  `int` values in all four, so they are `Int` here.
* `apertureSize` and `minResponse` are locals of the function with the fixed
  values 3 and 100; the scan is embedded with both as parameters
  (`harrisNMS`) and `detKeypointsHarris` instantiates them.
-/

namespace Harris

/-- The fields of `cv::KeyPoint` written by the loop (lines 157-160). -/
structure KeyPoint where
  x : Int
  y : Int
  size : Int
  response : Int
deriving DecidableEq, Repr

/-- A single-channel `float` matrix: `rows`, `cols` and the cell values. -/
structure Mat where
  rows : Nat
  cols : Nat
  data : Nat → Nat → ℚ

/-- Checked element access `m.at<float>(row, col)`: `none` when the index is
outside the matrix. -/
def Mat.at (m : Mat) (row col : Int) : Option ℚ :=
  if 0 ≤ row ∧ row < m.rows ∧ 0 ≤ col ∧ col < m.cols then
    some (m.data row.toNat col.toNat)
  else none

/-- The conversion `(int) x` of a `float`: truncation toward zero. -/
def castInt (q : ℚ) : Int := Int.tdiv q.num q.den

/-- Line 109: `int window_size = 2*apertureSize;`. -/
def window_size (apertureSize : Int) : Int := 2 * apertureSize

/-- Line 110: `int window_dist = floor(window_size / 2);` (integer division,
whose result `floor` leaves unchanged). -/
def window_dist (apertureSize : Int) : Int := Int.tdiv (window_size apertureSize) 2

/-- The values `lo, lo+1, ..., hi` taken by a loop variable of
`for (int i = lo; i <= hi; i++)`. -/
def intRange (lo hi : Int) : List Int :=
  (List.range (hi + 1 - lo).toNat).map (fun (i : Nat) => lo + (i : Int))

/-- Lines 146-151: one read of the window scan and the update of `max_val`. -/
def windowStep (dst_norm : Mat) (minResponse : Int) (max_val : Int)
    (window_row window_col : Int) : Option Int :=
  match dst_norm.at window_row window_col with
  | none => none
  | some v =>
    let new_val := castInt v
    if new_val ≥ minResponse ∧ new_val > max_val then some new_val else some max_val

/-- Lines 144-152: the inner loop over `window_col` for one `window_row`. -/
def windowRowScan (dst_norm : Mat) (minResponse d img_col : Int) (max_val : Int)
    (window_row : Int) : Option Int :=
  (intRange (img_col - d) (img_col + d)).foldlM
    (fun mv window_col => windowStep dst_norm minResponse mv window_row window_col) max_val

/-- Lines 142-153: the window scan around `(img_row, img_col)`, started from
`max_val`. -/
def windowScan (dst_norm : Mat) (minResponse d img_row img_col : Int) (max_val : Int) :
    Option Int :=
  (intRange (img_row - d) (img_row + d)).foldlM
    (fun mv window_row => windowRowScan dst_norm minResponse d img_col mv window_row) max_val

/-- The coordinates `(window_row, window_col)` the window scan of lines 142-153
passes to `at`, in the order it reads them. -/
def windowCoords (d img_row img_col : Int) : List (Int × Int) :=
  (intRange (img_row - d) (img_row + d)).flatMap
    (fun window_row => (intRange (img_col - d) (img_col + d)).map (fun window_col => (window_row, window_col)))

/-- Lines 157-160: the keypoint pushed for pixel `(img_row, img_col)`. -/
def newKeyPoint (apertureSize : Int) (img_row img_col : Nat) (cur_val : Int) : KeyPoint :=
  { x := img_col, y := img_row, size := 2 * apertureSize, response := cur_val }

/-- Lines 131-165: the body of the pixel loops for one pixel, acting on the
keypoint vector. -/
def pixelBody (dst_norm : Mat) (apertureSize minResponse : Int) (keypoints : List KeyPoint)
    (img_row img_col : Nat) : Option (List KeyPoint) :=
  match dst_norm.at img_row img_col with
  | none => none
  | some v =>
    let cur_val := castInt v
    if cur_val < minResponse then some keypoints
    else
      match windowScan dst_norm minResponse (window_dist apertureSize) img_row img_col 0 with
      | none => none
      | some max_val =>
        if cur_val = max_val then
          some (keypoints ++ [newKeyPoint apertureSize img_row img_col cur_val])
        else some keypoints

/-- Lines 129-166: the loop over `img_col` for one `img_row`. -/
def rowLoop (dst_norm : Mat) (apertureSize minResponse : Int) (keypoints : List KeyPoint)
    (img_row : Nat) : Option (List KeyPoint) :=
  (List.range dst_norm.cols).foldlM
    (fun kps img_col => pixelBody dst_norm apertureSize minResponse kps img_row img_col) keypoints

/-- Lines 127-167: the non-maximum-suppression loop over all pixels, acting on
the caller's keypoint vector. -/
def harrisNMS (dst_norm : Mat) (apertureSize minResponse : Int) (keypoints : List KeyPoint) :
    Option (List KeyPoint) :=
  (List.range dst_norm.rows).foldlM
    (fun kps img_row => rowLoop dst_norm apertureSize minResponse kps img_row) keypoints

/-- The effect of `detKeypointsHarris` on `keypoints`, given the normalised
response matrix: the loop with `apertureSize = 3`, `minResponse = 100`
(lines 106-107). -/
def detKeypointsHarris (keypoints : List KeyPoint) (dst_norm : Mat) : Option (List KeyPoint) :=
  harrisNMS dst_norm 3 100 keypoints

/-! ## Concrete response matrices -/

/-- A `rows × cols` matrix that is 0 except for the value `v` at `(r0, c0)`. -/
def peakMat (rows cols r0 c0 : Nat) (v : ℚ) : Mat :=
  { rows := rows, cols := cols, data := fun r c => if r = r0 ∧ c = c0 then v else 0 }

/-! ## Pure counterparts used to state and prove the properties -/

/-- The update of `max_val` by one value read (line 147-150). -/
def maxStep (minResponse : Int) (max_val new_val : Int) : Int :=
  if new_val ≥ minResponse ∧ new_val > max_val then new_val else max_val

/-- The `int` value the scan sees at a coordinate (0 outside the matrix, where
the scan itself is undefined). -/
def cellInt (m : Mat) (p : Int × Int) : Int := castInt ((m.at p.1 p.2).getD 0)

/-- The window around `(img_row, img_col)` lies inside the matrix. -/
def windowInside (m : Mat) (d img_row img_col : Int) : Prop :=
  0 ≤ img_row - d ∧ img_row + d < m.rows ∧ 0 ≤ img_col - d ∧ img_col + d < m.cols

instance (m : Mat) (d r c : Int) : Decidable (windowInside m d r c) := by
  unfold windowInside; infer_instance

/-- The value of `max_val` after a scan of in-range coordinates. -/
def windowMax (m : Mat) (minResponse d img_row img_col : Int) : Int :=
  ((windowCoords d img_row img_col).map (cellInt m)).foldl (maxStep minResponse) 0

/-- The keypoints one pixel contributes: `pixelBody` run on an empty vector. -/
def pixelEmit (m : Mat) (apertureSize minResponse : Int) (img_row img_col : Nat) :
    Option (List KeyPoint) :=
  pixelBody m apertureSize minResponse [] img_row img_col

/-- Run `g` on every element, failing when one run fails, and concatenate. -/
def collect {α β : Type} (g : α → Option (List β)) : List α → Option (List β)
  | [] => some []
  | x :: xs =>
    match g x with
    | none => none
    | some a => (collect g xs).map (fun rest => a ++ rest)

/-- The keypoints one row contributes. -/
def rowEmit (m : Mat) (apertureSize minResponse : Int) (img_row : Nat) : Option (List KeyPoint) :=
  collect (pixelEmit m apertureSize minResponse img_row) (List.range m.cols)

/-- The keypoints a defined run appends, in scan order. -/
def emitList (m : Mat) (apertureSize minResponse : Int) : List KeyPoint :=
  (List.range m.rows).flatMap (fun r =>
    (List.range m.cols).flatMap (fun c => (pixelEmit m apertureSize minResponse r c).getD []))

/-- Every pixel's body runs without an out-of-range read. -/
def runDefined (m : Mat) (apertureSize minResponse : Int) : Prop :=
  ∀ r, r < m.rows → ∀ c, c < m.cols → (pixelEmit m apertureSize minResponse r c).isSome = true

/-- The truncated values found in the window of `(img_row, img_col)` that are
at least `minResponse`: the values among which the scan takes its maximum. -/
def qualifying (m : Mat) (minResponse d img_row img_col : Int) : List Int :=
  (((windowCoords d img_row img_col).filterMap (fun p => m.at p.1 p.2)).map castInt).filter
    (fun x => decide (minResponse ≤ x))

/-- The values of the window pixels, as stored, that are at least
`minResponse`. -/
def qualifyingRaw (m : Mat) (minResponse d img_row img_col : Int) : List ℚ :=
  ((windowCoords d img_row img_col).filterMap (fun p => m.at p.1 p.2)).filter
    (fun v => decide ((minResponse : ℚ) ≤ v))

/-- The value `x` is the greatest element of the list `l`. -/
def IsGreatestIn {α : Type} [LE α] (l : List α) (x : α) : Prop :=
  x ∈ l ∧ ∀ y ∈ l, y ≤ x

instance {α : Type} [LE α] [DecidableEq α] [DecidableRel (fun a b : α => a ≤ b)]
    (l : List α) (x : α) : Decidable (IsGreatestIn l x) := by
  unfold IsGreatestIn; infer_instance

/-- A `rows × cols` matrix that is 0 except for `v1` at `(r1, c1)` and `v2` at
`(r2, c2)`. -/
def twoPeakMat (rows cols r1 c1 : Nat) (v1 : ℚ) (r2 c2 : Nat) (v2 : ℚ) : Mat :=
  { rows := rows, cols := cols,
    data := fun r c => if r = r1 ∧ c = c1 then v1 else if r = r2 ∧ c = c2 then v2 else 0 }

/-- A `rows × cols` matrix holding `v` in every cell. -/
def constMat (rows cols : Nat) (v : ℚ) : Mat :=
  { rows := rows, cols := cols, data := fun _ _ => v }

/-- A 7 × 8 matrix holding 150.5 at (3,3) and 150.75 at (3,4), 0 elsewhere. -/
def fracPlateau : Mat := twoPeakMat 7 8 3 3 (mkRat 301 2) 3 4 (mkRat 603 4)

/-- A 7 × 8 matrix holding 150 at (3,3) and at (3,4), 0 elsewhere. -/
def plateau : Mat := twoPeakMat 7 8 3 3 150 3 4 150

/-! ## Ranges and folds -/

theorem mem_intRange (lo hi x : Int) : x ∈ intRange lo hi ↔ lo ≤ x ∧ x ≤ hi := by
  unfold intRange
  simp only [List.mem_map, List.mem_range]
  constructor
  · rintro ⟨i, hi1, rfl⟩
    omega
  · rintro ⟨h1, h2⟩
    exact ⟨(x - lo).toNat, by omega, by omega⟩

theorem mem_windowCoords (d r c : Int) (p : Int × Int) :
    p ∈ windowCoords d r c ↔ (r - d ≤ p.1 ∧ p.1 ≤ r + d) ∧ (c - d ≤ p.2 ∧ p.2 ≤ c + d) := by
  unfold windowCoords
  simp only [List.mem_flatMap, List.mem_map, mem_intRange]
  constructor
  · rintro ⟨wr, hwr, wc, hwc, rfl⟩
    exact ⟨hwr, hwc⟩
  · rintro ⟨h1, h2⟩
    exact ⟨p.1, h1, p.2, h2, rfl⟩

theorem foldlM_flatMap_option {α β γ : Type} (f : α → List β) (g : γ → β → Option γ)
    (l : List α) (a : γ) :
    (l.flatMap f).foldlM g a = l.foldlM (fun acc x => (f x).foldlM g acc) a := by
  induction l generalizing a with
  | nil => rfl
  | cons x xs ih =>
    rw [List.flatMap_cons, List.foldlM_append, List.foldlM_cons]
    cases h : (f x).foldlM g a with
    | none => rfl
    | some b => exact ih b

/-- The nested window loops read exactly `windowCoords`, in order. -/
theorem windowScan_eq_coords (m : Mat) (mr d r c mv : Int) :
    windowScan m mr d r c mv
      = (windowCoords d r c).foldlM (fun acc p => windowStep m mr acc p.1 p.2) mv := by
  unfold windowScan windowCoords windowRowScan
  rw [foldlM_flatMap_option]
  congr 1
  funext acc wr
  rw [List.foldlM_map]

theorem windowStep_eq (m : Mat) (mr mv wr wc : Int) :
    windowStep m mr mv wr wc = (m.at wr wc).map (fun v => maxStep mr mv (castInt v)) := by
  unfold windowStep maxStep
  cases m.at wr wc with
  | none => rfl
  | some v =>
    simp only [Option.map_some']
    split <;> rfl

theorem coords_fold_some (m : Mat) (mr : Int) (l : List (Int × Int)) (mv : Int)
    (h : ∀ p ∈ l, (m.at p.1 p.2).isSome = true) :
    l.foldlM (fun acc p => windowStep m mr acc p.1 p.2) mv
      = some ((l.map (cellInt m)).foldl (maxStep mr) mv) := by
  induction l generalizing mv with
  | nil => rfl
  | cons p ps ih =>
    have hp := h p (List.mem_cons_self _ _)
    obtain ⟨v, hv⟩ := Option.isSome_iff_exists.mp hp
    rw [List.foldlM_cons, windowStep_eq, hv]
    simp only [Option.map_some', List.map_cons, List.foldl_cons]
    have : cellInt m p = castInt v := by simp [cellInt, hv]
    rw [this]
    exact ih _ (fun q hq => h q (List.mem_cons_of_mem _ hq))

theorem coords_fold_none (m : Mat) (mr : Int) (l : List (Int × Int)) (mv : Int)
    (h : ∃ p ∈ l, m.at p.1 p.2 = none) :
    l.foldlM (fun acc p => windowStep m mr acc p.1 p.2) mv = none := by
  induction l generalizing mv with
  | nil => simp at h
  | cons p ps ih =>
    rw [List.foldlM_cons, windowStep_eq]
    cases hv : m.at p.1 p.2 with
    | none => rfl
    | some v =>
      simp only [Option.map_some']
      obtain ⟨q, hq, hqn⟩ := h
      rcases List.mem_cons.mp hq with rfl | hq2
      · rw [hv] at hqn; cases hqn
      · exact ih _ ⟨q, hq2, hqn⟩

/-! ## The running maximum -/

theorem foldMax_ge_init (mr : Int) (vals : List Int) (mv : Int) :
    mv ≤ vals.foldl (maxStep mr) mv := by
  induction vals generalizing mv with
  | nil => exact le_refl _
  | cons v vs ih =>
    rw [List.foldl_cons]
    refine le_trans ?_ (ih _)
    unfold maxStep
    split <;> omega

theorem foldMax_ge_mem (mr : Int) (vals : List Int) (mv : Int) (v : Int)
    (hv : v ∈ vals) (hq : mr ≤ v) : v ≤ vals.foldl (maxStep mr) mv := by
  induction vals generalizing mv with
  | nil => cases hv
  | cons w ws ih =>
    rw [List.foldl_cons]
    rcases List.mem_cons.mp hv with rfl | h
    · refine le_trans ?_ (foldMax_ge_init mr ws _)
      unfold maxStep
      split <;> omega
    · exact ih _ h

theorem foldMax_attained (mr : Int) (vals : List Int) (mv : Int) :
    vals.foldl (maxStep mr) mv = mv
      ∨ (vals.foldl (maxStep mr) mv ∈ vals ∧ mr ≤ vals.foldl (maxStep mr) mv) := by
  induction vals generalizing mv with
  | nil => exact Or.inl rfl
  | cons w ws ih =>
    rw [List.foldl_cons]
    rcases ih (maxStep mr mv w) with h | ⟨h1, h2⟩
    · rw [h]
      unfold maxStep
      split
      · rename_i hc
        exact Or.inr ⟨List.mem_cons_self _ _, hc.1⟩
      · exact Or.inl rfl
    · exact Or.inr ⟨List.mem_cons_of_mem _ h1, h2⟩

/-- When the centre value `cur ≥ max(mr, 0)` is among the values read, the
running maximum equals `cur` exactly when no qualifying value exceeds it. -/
theorem foldMax_eq_iff (mr : Int) (vals : List Int) (cur : Int)
    (hmem : cur ∈ vals) (hq : mr ≤ cur) (h0 : 0 ≤ cur) :
    cur = vals.foldl (maxStep mr) 0 ↔ ∀ v ∈ vals, mr ≤ v → v ≤ cur := by
  constructor
  · intro h v hv hvq
    rw [h]
    exact foldMax_ge_mem mr vals 0 v hv hvq
  · intro h
    have h1 := foldMax_ge_mem mr vals 0 cur hmem hq
    rcases foldMax_attained mr vals 0 with h2 | ⟨h2, h3⟩
    · omega
    · have := h _ h2 h3
      omega

/-! ## Element access and the window scan -/

theorem at_some_iff (m : Mat) (row col : Int) :
    (m.at row col).isSome = true ↔ 0 ≤ row ∧ row < m.rows ∧ 0 ≤ col ∧ col < m.cols := by
  unfold Mat.at
  split <;> simp_all

theorem at_pixel (m : Mat) (r c : Nat) (hr : r < m.rows) (hc : c < m.cols) :
    m.at (r : Int) (c : Int) = some (m.data r c) := by
  unfold Mat.at
  rw [if_pos (by omega)]
  simp

theorem at_eq_some (m : Mat) (row col : Int) (v : ℚ) (h : m.at row col = some v) :
    (0 ≤ row ∧ row < m.rows ∧ 0 ≤ col ∧ col < m.cols) ∧ v = m.data row.toNat col.toNat := by
  unfold Mat.at at h
  split at h
  · rename_i hc
    exact ⟨hc, (Option.some.inj h).symm⟩
  · cases h

theorem coords_inside (m : Mat) (d r c : Int) (h : windowInside m d r c) :
    ∀ p ∈ windowCoords d r c, (m.at p.1 p.2).isSome = true := by
  intro p hp
  rw [mem_windowCoords] at hp
  rw [at_some_iff]
  unfold windowInside at h
  omega

theorem coords_outside (m : Mat) (d r c : Int) (hd : 0 ≤ d) (h : ¬ windowInside m d r c) :
    ∃ p ∈ windowCoords d r c, m.at p.1 p.2 = none := by
  have key : ∀ p : Int × Int, p ∈ windowCoords d r c →
      ¬ (0 ≤ p.1 ∧ p.1 < m.rows ∧ 0 ≤ p.2 ∧ p.2 < m.cols) → m.at p.1 p.2 = none := by
    intro p _ hb
    cases hv : m.at p.1 p.2 with
    | none => rfl
    | some v => exact absurd (at_eq_some m _ _ v hv).1 hb
  unfold windowInside at h
  by_cases h1 : 0 ≤ r - d
  · by_cases h2 : r + d < m.rows
    · by_cases h3 : 0 ≤ c - d
      · have h4 : ¬ c + d < m.cols := fun h4 => h ⟨h1, h2, h3, h4⟩
        have hp : (r, c + d) ∈ windowCoords d r c := by rw [mem_windowCoords]; simp; omega
        exact ⟨_, hp, key _ hp (by simp; omega)⟩
      · have hp : (r, c - d) ∈ windowCoords d r c := by rw [mem_windowCoords]; simp; omega
        exact ⟨_, hp, key _ hp (by simp; omega)⟩
    · have hp : (r + d, c) ∈ windowCoords d r c := by rw [mem_windowCoords]; simp; omega
      exact ⟨_, hp, key _ hp (by simp; omega)⟩
  · have hp : (r - d, c) ∈ windowCoords d r c := by rw [mem_windowCoords]; simp; omega
    exact ⟨_, hp, key _ hp (by simp; omega)⟩

/-- Inside the matrix the scan returns the running maximum. -/
theorem windowScan_inside (m : Mat) (mr d r c : Int) (h : windowInside m d r c) :
    windowScan m mr d r c 0 = some (windowMax m mr d r c) := by
  rw [windowScan_eq_coords]
  exact coords_fold_some m mr _ 0 (coords_inside m d r c h)

/-- A window that leaves the matrix makes the scan read out of range. -/
theorem windowScan_outside (m : Mat) (mr d r c : Int) (hd : 0 ≤ d)
    (h : ¬ windowInside m d r c) : windowScan m mr d r c 0 = none := by
  rw [windowScan_eq_coords]
  exact coords_fold_none m mr _ 0 (coords_outside m d r c hd h)

/-- The scan is defined exactly when every coordinate it reads is in range;
the threshold plays no part. -/
theorem windowScan_isSome_iff (m : Mat) (mr d r c : Int) :
    (windowScan m mr d r c 0).isSome = true
      ↔ ∀ p ∈ windowCoords d r c, (m.at p.1 p.2).isSome = true := by
  rw [windowScan_eq_coords]
  constructor
  · intro h p hp
    by_contra hn
    have hnone : m.at p.1 p.2 = none := by
      cases hv : m.at p.1 p.2 with
      | none => rfl
      | some v => rw [hv] at hn; simp at hn
    rw [coords_fold_none m mr _ 0 ⟨p, hp, hnone⟩] at h
    simp at h
  · intro h
    rw [coords_fold_some m mr _ 0 h]
    rfl

theorem windowScan_eq_some (m : Mat) (mr d r c mx : Int)
    (h : windowScan m mr d r c 0 = some mx) :
    (∀ p ∈ windowCoords d r c, (m.at p.1 p.2).isSome = true) ∧ mx = windowMax m mr d r c := by
  have hs : (windowScan m mr d r c 0).isSome = true := by rw [h]; rfl
  have hall := (windowScan_isSome_iff m mr d r c).mp hs
  refine ⟨hall, ?_⟩
  rw [windowScan_eq_coords, coords_fold_some m mr _ 0 hall] at h
  exact (Option.some.inj h).symm

/-! ## One pixel -/

theorem pixelBody_eq_map (m : Mat) (a mr : Int) (kps : List KeyPoint) (r c : Nat) :
    pixelBody m a mr kps r c = (pixelEmit m a mr r c).map (fun new => kps ++ new) := by
  unfold pixelEmit pixelBody
  cases m.at (r : Int) (c : Int) with
  | none => rfl
  | some v =>
    simp only
    split
    · simp
    · cases windowScan m mr (window_dist a) r c 0 with
      | none => rfl
      | some mx =>
        simp only
        split <;> simp

/-- The value of `pixelEmit` at a pixel of the matrix, by cases. -/
theorem pixelEmit_eq (m : Mat) (a mr : Int) (r c : Nat) (hr : r < m.rows) (hc : c < m.cols) :
    pixelEmit m a mr r c =
      if castInt (m.data r c) < mr then some []
      else (windowScan m mr (window_dist a) r c 0).bind (fun mx =>
        if castInt (m.data r c) = mx then some [newKeyPoint a r c (castInt (m.data r c))]
        else some []) := by
  unfold pixelEmit pixelBody
  rw [at_pixel m r c hr hc]
  simp only
  split
  · rfl
  · cases windowScan m mr (window_dist a) r c 0 with
    | none => rfl
    | some mx =>
      simp only [Option.some_bind, List.nil_append]

/-- What a keypoint contributed by a pixel looks like, and why it was pushed. -/
theorem pixelEmit_mem (m : Mat) (a mr : Int) (r c : Nat) (hr : r < m.rows) (hc : c < m.cols)
    (l : List KeyPoint) (h : pixelEmit m a mr r c = some l) (kp : KeyPoint) (hk : kp ∈ l) :
    kp = newKeyPoint a r c (castInt (m.data r c))
      ∧ mr ≤ castInt (m.data r c)
      ∧ (∀ p ∈ windowCoords (window_dist a) r c, (m.at p.1 p.2).isSome = true)
      ∧ castInt (m.data r c) = windowMax m mr (window_dist a) r c := by
  rw [pixelEmit_eq m a mr r c hr hc] at h
  split at h
  · cases h; cases hk
  · rename_i hlt
    cases hw : windowScan m mr (window_dist a) r c 0 with
    | none => rw [hw] at h; cases h
    | some mx =>
      rw [hw] at h
      simp only [Option.some_bind] at h
      obtain ⟨hall, hmx⟩ := windowScan_eq_some m mr _ _ _ mx hw
      split at h
      · rename_i heq
        cases h
        rw [List.mem_singleton] at hk
        exact ⟨hk, by omega, hall, by rw [← hmx]; exact heq⟩
      · cases h; cases hk

theorem pixelEmit_length_le_one (m : Mat) (a mr : Int) (r c : Nat) (hr : r < m.rows)
    (hc : c < m.cols) (l : List KeyPoint) (h : pixelEmit m a mr r c = some l) :
    l = [] ∨ l = [newKeyPoint a r c (castInt (m.data r c))] := by
  rw [pixelEmit_eq m a mr r c hr hc] at h
  split at h
  · cases h; exact Or.inl rfl
  · cases hw : windowScan m mr (window_dist a) r c 0 with
    | none => rw [hw] at h; cases h
    | some mx =>
      rw [hw] at h
      simp only [Option.some_bind] at h
      split at h
      · cases h; exact Or.inr rfl
      · cases h; exact Or.inl rfl

/-- Below the threshold the pixel is skipped without any window read. -/
theorem pixelEmit_below (m : Mat) (a mr : Int) (r c : Nat) (hr : r < m.rows) (hc : c < m.cols)
    (h : castInt (m.data r c) < mr) : pixelEmit m a mr r c = some [] := by
  rw [pixelEmit_eq m a mr r c hr hc, if_pos h]

/-- At or above the threshold, with the window inside the matrix, the pixel is
pushed exactly when its value equals the running maximum. -/
theorem pixelEmit_inside (m : Mat) (a mr : Int) (r c : Nat) (hr : r < m.rows) (hc : c < m.cols)
    (h : mr ≤ castInt (m.data r c)) (hin : windowInside m (window_dist a) r c) :
    pixelEmit m a mr r c =
      if castInt (m.data r c) = windowMax m mr (window_dist a) r c then
        some [newKeyPoint a r c (castInt (m.data r c))]
      else some [] := by
  rw [pixelEmit_eq m a mr r c hr hc, if_neg (by omega), windowScan_inside m mr _ _ _ hin]
  rfl

/-- At or above the threshold, a window leaving the matrix is read out of range. -/
theorem pixelEmit_outside (m : Mat) (a mr : Int) (r c : Nat) (hr : r < m.rows)
    (hc : c < m.cols) (h : mr ≤ castInt (m.data r c)) (hd : 0 ≤ window_dist a)
    (hout : ¬ windowInside m (window_dist a) r c) : pixelEmit m a mr r c = none := by
  rw [pixelEmit_eq m a mr r c hr hc, if_neg (by omega), windowScan_outside m mr _ _ _ hd hout]
  rfl

/-! ## The pixel loops -/

theorem foldlM_collect {α β : Type} (g : α → Option (List β))
    (f : List β → α → Option (List β))
    (hf : ∀ kps x, f kps x = (g x).map (fun new => kps ++ new)) (l : List α) (kps : List β) :
    l.foldlM f kps = (collect g l).map (fun new => kps ++ new) := by
  induction l generalizing kps with
  | nil => simp [collect]
  | cons x xs ih =>
    rw [List.foldlM_cons, hf]
    unfold collect
    cases g x with
    | none => rfl
    | some a0 =>
      simp only [Option.map_some']
      show xs.foldlM f (kps ++ a0) = _
      rw [ih]
      cases collect g xs with
      | none => rfl
      | some rest => simp

theorem collect_eq_some_iff {α β : Type} (g : α → Option (List β)) (l : List α)
    (out : List β) :
    collect g l = some out
      ↔ (∀ x ∈ l, (g x).isSome = true) ∧ out = l.flatMap (fun x => (g x).getD []) := by
  induction l generalizing out with
  | nil =>
    simp only [collect, List.flatMap_nil, List.not_mem_nil, false_imp_iff, implies_true, true_and]
    constructor
    · intro h; exact (Option.some.inj h).symm
    · intro h; rw [h]
  | cons x xs ih =>
    unfold collect
    cases hg : g x with
    | none =>
      simp only [List.mem_cons, forall_eq_or_imp, hg, Option.isSome_none, Bool.false_eq_true,
        false_and, iff_false]
      intro h; cases h
    | some a0 =>
      simp only [List.mem_cons, forall_eq_or_imp, hg, Option.isSome_some, true_and,
        List.flatMap_cons, Option.getD_some]
      cases hc : collect g xs with
      | none =>
        simp only [Option.map_none']
        constructor
        · intro h; cases h
        · intro ⟨hall, _⟩
          have := (ih (xs.flatMap (fun x => (g x).getD []))).mpr ⟨hall, rfl⟩
          rw [hc] at this; cases this
      | some rest =>
        obtain ⟨hall, hrest⟩ := (ih rest).mp hc
        simp only [Option.map_some', Option.some.injEq]
        constructor
        · intro h; exact ⟨hall, by rw [← h, hrest]⟩
        · intro ⟨_, h⟩; rw [h, hrest]

theorem rowLoop_eq_map (m : Mat) (a mr : Int) (kps : List KeyPoint) (r : Nat) :
    rowLoop m a mr kps r = (rowEmit m a mr r).map (fun new => kps ++ new) := by
  unfold rowLoop rowEmit
  exact foldlM_collect _ _ (fun k c => pixelBody_eq_map m a mr k r c) _ _

theorem harrisNMS_eq_map (m : Mat) (a mr : Int) (kps : List KeyPoint) :
    harrisNMS m a mr kps
      = (collect (rowEmit m a mr) (List.range m.rows)).map (fun new => kps ++ new) := by
  unfold harrisNMS
  exact foldlM_collect _ _ (fun k r => rowLoop_eq_map m a mr k r) _ _

theorem rowEmit_isSome_iff (m : Mat) (a mr : Int) (r : Nat) :
    (rowEmit m a mr r).isSome = true
      ↔ ∀ c, c < m.cols → (pixelEmit m a mr r c).isSome = true := by
  unfold rowEmit
  constructor
  · intro h c hc
    obtain ⟨out, hout⟩ := Option.isSome_iff_exists.mp h
    exact ((collect_eq_some_iff _ _ out).mp hout).1 c (List.mem_range.mpr hc)
  · intro h
    rw [(collect_eq_some_iff _ _ _).mpr ⟨fun c hc => h c (List.mem_range.mp hc), rfl⟩]
    rfl

theorem rowEmit_getD (m : Mat) (a mr : Int) (r : Nat)
    (h : ∀ c, c < m.cols → (pixelEmit m a mr r c).isSome = true) :
    (rowEmit m a mr r).getD []
      = (List.range m.cols).flatMap (fun c => (pixelEmit m a mr r c).getD []) := by
  unfold rowEmit
  rw [(collect_eq_some_iff _ _ _).mpr ⟨fun c hc => h c (List.mem_range.mp hc), rfl⟩]
  rfl

theorem flatMap_congr_mem {α β : Type} (l : List α) (f g : α → List β)
    (h : ∀ x ∈ l, f x = g x) : l.flatMap f = l.flatMap g := by
  induction l with
  | nil => rfl
  | cons x xs ih =>
    rw [List.flatMap_cons, List.flatMap_cons, h x (List.mem_cons_self _ _),
      ih (fun y hy => h y (List.mem_cons_of_mem _ hy))]

/-- The loop returns exactly when no pixel body reads out of range, and then
it has appended `emitList` to the vector. -/
theorem harrisNMS_eq_some_iff (m : Mat) (a mr : Int) (kps out : List KeyPoint) :
    harrisNMS m a mr kps = some out ↔ runDefined m a mr ∧ out = kps ++ emitList m a mr := by
  rw [harrisNMS_eq_map]
  constructor
  · intro h
    cases hc : collect (rowEmit m a mr) (List.range m.rows) with
    | none => rw [hc] at h; cases h
    | some new =>
      rw [hc] at h
      simp only [Option.map_some', Option.some.injEq] at h
      obtain ⟨hall, hnew⟩ := (collect_eq_some_iff _ _ new).mp hc
      have hdef : runDefined m a mr := fun r hr =>
        (rowEmit_isSome_iff m a mr r).mp (hall r (List.mem_range.mpr hr))
      refine ⟨hdef, ?_⟩
      rw [← h, hnew]
      unfold emitList
      congr 1
      exact flatMap_congr_mem _ _ _ (fun r hr => rowEmit_getD m a mr r (hdef r (List.mem_range.mp hr)))
  · rintro ⟨hdef, rfl⟩
    have hall : ∀ r ∈ List.range m.rows, (rowEmit m a mr r).isSome = true := fun r hr =>
      (rowEmit_isSome_iff m a mr r).mpr (hdef r (List.mem_range.mp hr))
    rw [(collect_eq_some_iff _ _ _).mpr ⟨hall, rfl⟩]
    simp only [Option.map_some', Option.some.injEq]
    unfold emitList
    congr 1
    exact flatMap_congr_mem _ _ _ (fun r hr => rowEmit_getD m a mr r (hdef r (List.mem_range.mp hr)))

/-- Membership in the appended keypoints, pixel by pixel. -/
theorem mem_emitList (m : Mat) (a mr : Int) (kp : KeyPoint) :
    kp ∈ emitList m a mr
      ↔ ∃ r, r < m.rows ∧ ∃ c, c < m.cols ∧ kp ∈ (pixelEmit m a mr r c).getD [] := by
  unfold emitList
  simp only [List.mem_flatMap, List.mem_range]

/-! ## The conversion to `int` -/

theorem window_dist_eq (a : Int) : window_dist a = a := by
  unfold window_dist window_size
  exact Int.mul_tdiv_cancel_left a (by decide)

theorem castInt_eq_floor (q : ℚ) (h : 0 ≤ q) : castInt q = ⌊q⌋ := by
  unfold castInt
  rw [Rat.floor_def, Int.tdiv_eq_ediv (Rat.num_nonneg.mpr h) (Int.ofNat_nonneg _)]

theorem castInt_nonneg (q : ℚ) (h : 0 ≤ q) : 0 ≤ castInt q :=
  Int.tdiv_nonneg (Rat.num_nonneg.mpr h) (Int.ofNat_nonneg _)

theorem castInt_nonpos (q : ℚ) (h : q ≤ 0) : castInt q ≤ 0 := by
  unfold castInt
  have h1 : 0 ≤ -q.num := by
    have := Rat.num_nonpos.mpr h
    omega
  have h2 := Int.tdiv_nonneg h1 (Int.ofNat_nonneg q.den)
  rw [Int.neg_tdiv] at h2
  omega

theorem le_castInt (mr : Int) (q : ℚ) (h : (mr : ℚ) ≤ q) (h0 : 0 ≤ q) : mr ≤ castInt q := by
  rw [castInt_eq_floor q h0]
  exact Int.le_floor.mpr h

theorem castInt_lt (mr : Int) (q : ℚ) (h : q < (mr : ℚ)) (h0 : 0 ≤ q ∨ 0 < mr) :
    castInt q < mr := by
  by_cases hq : 0 ≤ q
  · rw [castInt_eq_floor q hq]
    exact Int.floor_lt.mpr h
  · have h1 := castInt_nonpos q (le_of_lt (not_le.mp hq))
    rcases h0 with h0 | h0
    · exact absurd h0 hq
    · omega

theorem castInt_le_castInt (w v : ℚ) (h : w ≤ v) (hv : 0 ≤ v) : castInt w ≤ castInt v := by
  by_cases hw : 0 ≤ w
  · rw [castInt_eq_floor w hw, castInt_eq_floor v hv]
    exact Int.floor_mono h
  · exact le_trans (castInt_nonpos w (le_of_lt (not_le.mp hw))) (castInt_nonneg v hv)

theorem castInt_intCast (n : Int) : castInt (n : ℚ) = n := by
  unfold castInt
  rw [Rat.num_intCast, Rat.den_intCast]
  exact Int.tdiv_one n

/-! ## The values the scan compares -/

theorem mem_coords_vals (m : Mat) (l : List (Int × Int))
    (hall : ∀ p ∈ l, (m.at p.1 p.2).isSome = true) (x : Int) :
    x ∈ l.map (cellInt m) ↔ ∃ p ∈ l, ∃ v, m.at p.1 p.2 = some v ∧ x = castInt v := by
  simp only [List.mem_map]
  constructor
  · rintro ⟨p, hp, rfl⟩
    obtain ⟨v, hv⟩ := Option.isSome_iff_exists.mp (hall p hp)
    exact ⟨p, hp, v, hv, by simp [cellInt, hv]⟩
  · rintro ⟨p, hp, v, hv, rfl⟩
    exact ⟨p, hp, by simp [cellInt, hv]⟩

theorem mem_qualifying (m : Mat) (mr d r c : Int) (x : Int) :
    x ∈ qualifying m mr d r c
      ↔ (∃ p ∈ windowCoords d r c, ∃ v, m.at p.1 p.2 = some v ∧ x = castInt v) ∧ mr ≤ x := by
  unfold qualifying
  simp only [List.mem_filter, List.mem_map, List.mem_filterMap, decide_eq_true_eq]
  constructor
  · rintro ⟨⟨v, ⟨p, hp, hv⟩, rfl⟩, hx⟩
    exact ⟨⟨p, hp, v, hv, rfl⟩, hx⟩
  · rintro ⟨⟨p, hp, v, hv, rfl⟩, hx⟩
    exact ⟨⟨v, ⟨p, hp, hv⟩, rfl⟩, hx⟩

theorem pixel_mem_windowCoords (d : Int) (r c : Nat) (hd : 0 ≤ d) :
    ((r : Int), (c : Int)) ∈ windowCoords d r c := by
  rw [mem_windowCoords]
  simp only
  omega

/-- With the window inside the matrix and a centre value at least
`max(minResponse, 0)`, the centre equals the running maximum exactly when it is
the greatest qualifying value. -/
theorem cur_eq_windowMax_iff (m : Mat) (mr d : Int) (r c : Nat) (hr : r < m.rows)
    (hc : c < m.cols) (hd : 0 ≤ d) (hall : ∀ p ∈ windowCoords d r c, (m.at p.1 p.2).isSome = true)
    (hq : mr ≤ castInt (m.data r c)) (h0 : 0 ≤ castInt (m.data r c)) :
    castInt (m.data r c) = windowMax m mr d r c
      ↔ IsGreatestIn (qualifying m mr d r c) (castInt (m.data r c)) := by
  have hcur : ∃ p ∈ windowCoords d r c, ∃ v, m.at p.1 p.2 = some v
      ∧ castInt (m.data r c) = castInt v :=
    ⟨_, pixel_mem_windowCoords d r c hd, m.data r c, at_pixel m r c hr hc, rfl⟩
  unfold windowMax
  rw [foldMax_eq_iff mr _ _ ((mem_coords_vals m _ hall _).mpr hcur) hq h0]
  unfold IsGreatestIn
  constructor
  · intro h
    refine ⟨(mem_qualifying m mr d r c _).mpr ⟨hcur, hq⟩, ?_⟩
    intro y hy
    obtain ⟨hy1, hy2⟩ := (mem_qualifying m mr d r c y).mp hy
    exact h y ((mem_coords_vals m _ hall y).mpr hy1) hy2
  · rintro ⟨_, h⟩ v hv hvq
    exact h v ((mem_qualifying m mr d r c v).mpr ⟨(mem_coords_vals m _ hall v).mp hv, hvq⟩)

/-! ## Consequences for a run that returns -/

theorem harrisNMS_new (m : Mat) (a mr : Int) (kps out : List KeyPoint)
    (h : harrisNMS m a mr kps = some out) :
    runDefined m a mr ∧ out = kps ++ emitList m a mr
      ∧ harrisNMS m a mr [] = some (emitList m a mr) := by
  obtain ⟨hdef, hout⟩ := (harrisNMS_eq_some_iff m a mr kps out).mp h
  exact ⟨hdef, hout, (harrisNMS_eq_some_iff m a mr [] _).mpr ⟨hdef, by simp⟩⟩

/-- In a run that returns, a keypoint is appended exactly when some pixel's
body pushes it. -/
theorem mem_emitList_iff (m : Mat) (a mr : Int) (hdef : runDefined m a mr) (kp : KeyPoint) :
    kp ∈ emitList m a mr
      ↔ ∃ r, r < m.rows ∧ ∃ c, c < m.cols ∧ pixelEmit m a mr r c = some [kp] := by
  rw [mem_emitList]
  constructor
  · rintro ⟨r, hr, c, hc, hk⟩
    obtain ⟨l, hl⟩ := Option.isSome_iff_exists.mp (hdef r hr c hc)
    rw [hl, Option.getD_some] at hk
    rcases pixelEmit_length_le_one m a mr r c hr hc l hl with rfl | rfl
    · cases hk
    · rw [List.mem_singleton] at hk
      exact ⟨r, hr, c, hc, by rw [hl, hk]⟩
  · rintro ⟨r, hr, c, hc, h⟩
    exact ⟨r, hr, c, hc, by rw [h]; simp⟩

/-! ## C1: when a pixel is emitted -/

theorem pixelBody_of_pixelEmit (m : Mat) (a mr : Int) (kps : List KeyPoint) (r c : Nat)
    (l : List KeyPoint) (h : pixelEmit m a mr r c = some l) :
    pixelBody m a mr kps r c = some (kps ++ l) := by
  rw [pixelBody_eq_map, h]
  rfl

/-- With the window inside a non-negative matrix, the pixel contributes its
keypoint exactly when its truncated value reaches the threshold and is the
greatest qualifying truncated value of the window. -/
theorem pixelEmit_inside_cases (m : Mat) (a mr : Int) (r c : Nat) (ha : 0 ≤ a)
    (hr : r < m.rows) (hc : c < m.cols) (h0 : 0 ≤ m.data r c)
    (hin : windowInside m (window_dist a) r c) :
    pixelEmit m a mr r c =
      if mr ≤ castInt (m.data r c)
          ∧ IsGreatestIn (qualifying m mr (window_dist a) r c) (castInt (m.data r c)) then
        some [newKeyPoint a r c (castInt (m.data r c))]
      else some [] := by
  by_cases hq : mr ≤ castInt (m.data r c)
  · have hd : 0 ≤ window_dist a := by rw [window_dist_eq]; exact ha
    rw [pixelEmit_inside m a mr r c hr hc hq hin]
    have key := cur_eq_windowMax_iff m mr (window_dist a) r c hr hc hd
      (coords_inside m _ _ _ hin) hq (castInt_nonneg _ h0)
    by_cases hg : IsGreatestIn (qualifying m mr (window_dist a) r c) (castInt (m.data r c))
    · rw [if_pos (key.mpr hg), if_pos ⟨hq, hg⟩]
    · rw [if_neg (fun h => hg (key.mp h)), if_neg (fun h => hg h.2)]
  · rw [pixelEmit_below m a mr r c hr hc (by omega), if_neg (fun h => hq h.1)]

theorem newKeyPoint_pos (a : Int) (r c : Nat) (v : Int) (r2 c2 : Nat)
    (kp : KeyPoint) (h : kp = newKeyPoint a r c v) (hx : kp.x = c2) (hy : kp.y = r2) :
    r = r2 ∧ c = c2 := by
  subst h
  simp only [newKeyPoint] at hx hy
  omega

/-- C1 (amended): for a response matrix of non-negative values, an aperture
`apertureSize ≥ 0` and a pixel `(r, c)` whose window lies inside the matrix, the
loop body pushes a keypoint for `(r, c)` if and only if `cur`, the value at
`(r, c)` truncated to an integer, is at least `minResponse` and is the
greatest of the truncated window values that are at least `minResponse`;
otherwise it leaves the vector unchanged.  The same holds for the keypoints
of a whole run that returns. -/
theorem C1_emit_iff_greatest_truncated (m : Mat) (a mr : Int) (kps : List KeyPoint)
    (r c : Nat) (ha : 0 ≤ a) (hr : r < m.rows) (hc : c < m.cols)
    (hnn : ∀ i j, 0 ≤ m.data i j) (hin : windowInside m (window_dist a) r c) :
    ((mr ≤ castInt (m.data r c)
        ∧ IsGreatestIn (qualifying m mr (window_dist a) r c) (castInt (m.data r c)))
      → pixelBody m a mr kps r c
          = some (kps ++ [newKeyPoint a r c (castInt (m.data r c))]))
    ∧ (¬ (mr ≤ castInt (m.data r c)
        ∧ IsGreatestIn (qualifying m mr (window_dist a) r c) (castInt (m.data r c)))
      → pixelBody m a mr kps r c = some kps)
    ∧ (∀ out, harrisNMS m a mr [] = some out →
        ((∃ kp ∈ out, kp.x = c ∧ kp.y = r)
          ↔ (mr ≤ castInt (m.data r c)
            ∧ IsGreatestIn (qualifying m mr (window_dist a) r c) (castInt (m.data r c))))) := by
  have hcases := pixelEmit_inside_cases m a mr r c ha hr hc (hnn r c) hin
  refine ⟨?_, ?_, ?_⟩
  · intro hcond
    rw [if_pos hcond] at hcases
    exact pixelBody_of_pixelEmit m a mr kps r c _ hcases
  · intro hcond
    rw [if_neg hcond] at hcases
    have := pixelBody_of_pixelEmit m a mr kps r c _ hcases
    rwa [List.append_nil] at this
  · intro out hout
    obtain ⟨hdef, hnew, _⟩ := harrisNMS_new m a mr [] out hout
    rw [List.nil_append] at hnew
    subst hnew
    constructor
    · rintro ⟨kp, hk, hx, hy⟩
      obtain ⟨r2, hr2, c2, hc2, hp⟩ := (mem_emitList_iff m a mr hdef kp).mp hk
      obtain ⟨hkp, _⟩ := pixelEmit_mem m a mr r2 c2 hr2 hc2 _ hp kp (List.mem_singleton.mpr rfl)
      obtain ⟨e1, e2⟩ := newKeyPoint_pos a r2 c2 _ r c kp hkp hx hy
      subst e1; subst e2
      by_contra hcond
      rw [if_neg hcond, hp] at hcases
      simp at hcases
    · intro hcond
      rw [if_pos hcond] at hcases
      exact ⟨_, (mem_emitList_iff m a mr hdef _).mpr ⟨r, hr, c, hc, hcases⟩, rfl, rfl⟩

theorem peakMat_nonneg (rows cols r0 c0 : Nat) (v : ℚ) (hv : 0 ≤ v) :
    ∀ i j, 0 ≤ (peakMat rows cols r0 c0 v).data i j := by
  intro i j
  unfold peakMat
  simp only
  split
  · exact hv
  · exact le_refl _

/-- C1 (amended), at the 7 × 7 matrix with 200 at (3,3): the centre pixel is
pushed. -/
theorem C1_emit_iff_greatest_truncated_witness :
    windowInside (peakMat 7 7 3 3 200) (window_dist 3) (3 : Nat) (3 : Nat)
    ∧ pixelBody (peakMat 7 7 3 3 200) 3 100 [] 3 3 = some [newKeyPoint 3 3 3 200]
    ∧ (∃ kp ∈ [newKeyPoint 3 3 3 200], kp.x = 3 ∧ kp.y = 3) :=
  have hin : windowInside (peakMat 7 7 3 3 200) (window_dist 3) (3 : Nat) (3 : Nat) := by decide
  have h := C1_emit_iff_greatest_truncated (peakMat 7 7 3 3 200) 3 100 [] 3 3 (by decide)
    (by decide) (by decide) (peakMat_nonneg 7 7 3 3 200 (by norm_num)) hin
  have hcond : (100 : Int) ≤ castInt ((peakMat 7 7 3 3 200).data 3 3)
      ∧ IsGreatestIn (qualifying (peakMat 7 7 3 3 200) 100 (window_dist 3) (3 : Nat) (3 : Nat))
          (castInt ((peakMat 7 7 3 3 200).data 3 3)) := by decide
  ⟨hin, h.1 hcond, (h.2.2 _ (by decide)).mpr hcond⟩

/-- C1 as stated fails on fractional responses: in the 7 × 8 matrix with 150.5
at (3,3) and 150.75 at (3,4) the window of (3,3) is inside the non-negative
matrix and the body pushes a keypoint for (3,3), although the stored value
150.5 is not the greatest stored window value that is at least 100. -/
theorem C1_counterexample_fractional :
    windowInside fracPlateau (window_dist 3) (3 : Nat) (3 : Nat)
    ∧ (∀ i j, 0 ≤ fracPlateau.data i j)
    ∧ pixelBody fracPlateau 3 100 [] 3 3 = some [newKeyPoint 3 3 3 150]
    ∧ ¬ IsGreatestIn (qualifyingRaw fracPlateau 100 (window_dist 3) (3 : Nat) (3 : Nat))
          (fracPlateau.data 3 3) := by
  refine ⟨by decide, ?_, by decide, by decide⟩
  intro i j
  unfold fracPlateau twoPeakMat
  simp only
  split
  · decide
  · split
    · decide
    · exact le_refl _

/-! ## C2: the window scan at the border -/

/-- C2 (evaluation at a failing input): in the 4 × 4 matrix with 255 at (0,0)
the scan does not skip pixel (0,0), whose window scan starts by reading
`(-3, -3)`; that index is outside the matrix, and the run of
`detKeypointsHarris` performs an out-of-range read. -/
theorem C2_window_read_out_of_range :
    ¬ castInt ((peakMat 4 4 0 0 255).data 0 0) < 100
    ∧ (windowCoords (window_dist 3) (0 : Nat) (0 : Nat)).head? = some ((-3 : Int), (-3 : Int))
    ∧ (peakMat 4 4 0 0 255).at (-3) (-3) = none
    ∧ windowScan (peakMat 4 4 0 0 255) 100 (window_dist 3) (0 : Nat) (0 : Nat) 0 = none
    ∧ detKeypointsHarris [] (peakMat 4 4 0 0 255) = none := by
  decide

/-! ## C3, C4, C8: what an emitted keypoint satisfies -/

/-- Everything known about a keypoint of a run that returns. -/
theorem emitted_spec (m : Mat) (a mr : Int) (out : List KeyPoint)
    (h : harrisNMS m a mr [] = some out) (kp : KeyPoint) (hk : kp ∈ out) :
    ∃ r c : Nat, r < m.rows ∧ c < m.cols
      ∧ kp = newKeyPoint a r c (castInt (m.data r c))
      ∧ mr ≤ castInt (m.data r c)
      ∧ (∀ p ∈ windowCoords (window_dist a) r c, (m.at p.1 p.2).isSome = true)
      ∧ castInt (m.data r c) = windowMax m mr (window_dist a) r c := by
  obtain ⟨hdef, hnew, _⟩ := harrisNMS_new m a mr [] out h
  rw [List.nil_append] at hnew
  subst hnew
  obtain ⟨r, hr, c, hc, hp⟩ := (mem_emitList_iff m a mr hdef kp).mp hk
  exact ⟨r, c, hr, hc, pixelEmit_mem m a mr r c hr hc _ hp kp (List.mem_singleton.mpr rfl)⟩

/-- C3 (amended): for every keypoint a returning run emits at `(r, c)`, every
coordinate of the window centred on `(r, c)` is a pixel of the matrix and no
such pixel has a truncated response strictly greater than the keypoint's
response, which is the truncated response at `(r, c)`. -/
theorem C3_no_greater_truncated_response (m : Mat) (a mr : Int) (out : List KeyPoint)
    (h : harrisNMS m a mr [] = some out) :
    ∀ kp ∈ out,
      (∃ cur, m.at kp.y kp.x = some cur ∧ kp.response = castInt cur)
      ∧ ∀ p ∈ windowCoords (window_dist a) kp.y kp.x,
          ∃ v, m.at p.1 p.2 = some v ∧ castInt v ≤ kp.response := by
  intro kp hk
  obtain ⟨r, c, hr, hc, hkp, hq, hall, hmax⟩ := emitted_spec m a mr out h kp hk
  subst hkp
  simp only [newKeyPoint]
  refine ⟨⟨_, at_pixel m r c hr hc, rfl⟩, ?_⟩
  intro p hp
  obtain ⟨v, hv⟩ := Option.isSome_iff_exists.mp (hall p hp)
  refine ⟨v, hv, ?_⟩
  by_cases hvq : mr ≤ castInt v
  · rw [hmax]
    unfold windowMax
    exact foldMax_ge_mem mr _ 0 _
      ((mem_coords_vals m _ hall _).mpr ⟨p, hp, v, hv, rfl⟩) hvq
  · omega

/-- C3 (amended), at the 7 × 8 matrix with 150.5 at (3,3) and 150.75 at (3,4):
both pixels are emitted with response 150 and every window value truncates to
at most 150. -/
theorem C3_no_greater_truncated_response_witness :
    harrisNMS fracPlateau 3 100 [] = some [newKeyPoint 3 3 3 150, newKeyPoint 3 3 4 150]
    ∧ ∀ kp ∈ [newKeyPoint 3 3 3 150, newKeyPoint 3 3 4 150],
      (∃ cur, fracPlateau.at kp.y kp.x = some cur ∧ kp.response = castInt cur)
      ∧ ∀ p ∈ windowCoords (window_dist 3) kp.y kp.x,
          ∃ v, fracPlateau.at p.1 p.2 = some v ∧ castInt v ≤ kp.response :=
  ⟨by decide, C3_no_greater_truncated_response fracPlateau 3 100 _ (by decide)⟩

/-- C3 as stated fails on fractional responses: in the 7 × 8 matrix with 150.5
at (3,3) and 150.75 at (3,4) the run emits a keypoint at (3,3) with response
150, while pixel (3,4) of its window holds 150.75, strictly more than the
150.5 stored at (3,3) and than the keypoint's response. -/
theorem C3_counterexample_fractional :
    harrisNMS fracPlateau 3 100 [] = some [newKeyPoint 3 3 3 150, newKeyPoint 3 3 4 150]
    ∧ ((3 : Int), (4 : Int)) ∈ windowCoords (window_dist 3) (3 : Nat) (3 : Nat)
    ∧ fracPlateau.at 3 3 = some (mkRat 301 2)
    ∧ fracPlateau.at 3 4 = some (mkRat 603 4)
    ∧ mkRat 301 2 < mkRat 603 4
    ∧ (((newKeyPoint 3 3 3 150).response : Int) : ℚ) < mkRat 603 4 := by
  decide

/-- C4: every keypoint a returning run emits has a response of at least
`minResponse`; a matrix all of whose values are below `minResponse` (the
values being non-negative, or `minResponse` positive) yields a run that
returns the vector unchanged; the 5 × 5 matrix of zeros with
`minResponse = 1` gives the empty output. -/
theorem C4_response_ge_minResponse (m : Mat) (a mr : Int) :
    (∀ out, harrisNMS m a mr [] = some out → ∀ kp ∈ out, mr ≤ kp.response)
    ∧ (((∀ i j, 0 ≤ m.data i j) ∨ 0 < mr) → (∀ i j, m.data i j < (mr : ℚ)) →
        ∀ kps, harrisNMS m a mr kps = some kps)
    ∧ harrisNMS (constMat 5 5 0) 3 1 [] = some [] := by
  refine ⟨?_, ?_, by decide⟩
  · intro out h kp hk
    obtain ⟨r, c, _, _, hkp, hq, _⟩ := emitted_spec m a mr out h kp hk
    subst hkp
    exact hq
  · intro hsign hlow kps
    have hpix : ∀ r, r < m.rows → ∀ c, c < m.cols → pixelEmit m a mr r c = some [] := by
      intro r hr c hc
      apply pixelEmit_below m a mr r c hr hc
      apply castInt_lt mr _ (hlow r c)
      rcases hsign with h | h
      · exact Or.inl (h r c)
      · exact Or.inr h
    rw [harrisNMS_eq_some_iff]
    refine ⟨fun r hr c hc => by rw [hpix r hr c hc]; rfl, ?_⟩
    have hnil : emitList m a mr = [] := by
      unfold emitList
      simp only [List.flatMap_eq_nil_iff, List.mem_range]
      intro r hr c hc
      rw [hpix r hr c hc]
      rfl
    rw [hnil, List.append_nil]

/-- C8 (amended): every keypoint a returning run emits comes from a pixel
`(r, c)` of the matrix; its position is that pixel (`x = c`, `y = r`), its
size is `2 * apertureSize` (the window size) and its response is the value of
the matrix at `(r, c)` truncated to an integer (the value itself when it is an
integer). -/
theorem C8_keypoint_fields (m : Mat) (a mr : Int) (out : List KeyPoint)
    (h : harrisNMS m a mr [] = some out) :
    ∀ kp ∈ out, ∃ r c : Nat, r < m.rows ∧ c < m.cols
      ∧ kp.x = c ∧ kp.y = r ∧ kp.size = 2 * a ∧ kp.size = window_size a
      ∧ kp.response = castInt (m.data r c)
      ∧ ∀ n : Int, m.data r c = (n : ℚ) → kp.response = n := by
  intro kp hk
  obtain ⟨r, c, hr, hc, hkp, _⟩ := emitted_spec m a mr out h kp hk
  subst hkp
  refine ⟨r, c, hr, hc, rfl, rfl, rfl, rfl, rfl, ?_⟩
  intro n hn
  simp only [newKeyPoint]
  rw [hn]
  exact castInt_intCast n

/-- C8 (amended), at the 7 × 7 matrix with 150.5 at (3,3): the one keypoint
has `x = 3`, `y = 3`, size 6 and response 150. -/
theorem C8_keypoint_fields_witness :
    harrisNMS (peakMat 7 7 3 3 (mkRat 301 2)) 3 100 []
        = some [{ x := 3, y := 3, size := 6, response := 150 }]
    ∧ ∀ kp ∈ [({ x := 3, y := 3, size := 6, response := 150 } : KeyPoint)],
        ∃ r c : Nat, r < (peakMat 7 7 3 3 (mkRat 301 2)).rows
          ∧ c < (peakMat 7 7 3 3 (mkRat 301 2)).cols
          ∧ kp.x = c ∧ kp.y = r ∧ kp.size = 2 * 3 ∧ kp.size = window_size 3
          ∧ kp.response = castInt ((peakMat 7 7 3 3 (mkRat 301 2)).data r c)
          ∧ ∀ n : Int, (peakMat 7 7 3 3 (mkRat 301 2)).data r c = (n : ℚ) → kp.response = n :=
  ⟨by decide, C8_keypoint_fields (peakMat 7 7 3 3 (mkRat 301 2)) 3 100 _ (by decide)⟩

/-- C8 as stated fails on fractional responses: the 7 × 7 matrix with 150.5 at
(3,3) yields one keypoint at (3,3) whose response is 150, not the stored
value 150.5. -/
theorem C8_counterexample_fractional :
    harrisNMS (peakMat 7 7 3 3 (mkRat 301 2)) 3 100 []
        = some [{ x := 3, y := 3, size := 6, response := 150 }]
    ∧ (peakMat 7 7 3 3 (mkRat 301 2)).data 3 3 = mkRat 301 2
    ∧ ((150 : Int) : ℚ) ≠ mkRat 301 2 := by
  decide

/-! ## C5: plateaus -/

/-- A pixel holding a non-negative value `v ≥ minResponse` that no value of its
window exceeds satisfies the emission condition. -/
theorem plateau_cond (m : Mat) (a mr : Int) (r c : Nat) (v : ℚ) (hv0 : 0 ≤ v)
    (hv : (mr : ℚ) ≤ v) (hr : r < m.rows) (hc : c < m.cols) (hval : m.data r c = v)
    (ha : 0 ≤ a)
    (hmax : ∀ q ∈ windowCoords (window_dist a) r c, ∀ w, m.at q.1 q.2 = some w → w ≤ v) :
    mr ≤ castInt (m.data r c)
      ∧ IsGreatestIn (qualifying m mr (window_dist a) r c) (castInt (m.data r c)) := by
  have hq : mr ≤ castInt (m.data r c) := by rw [hval]; exact le_castInt mr v hv hv0
  have hd : 0 ≤ window_dist a := by rw [window_dist_eq]; exact ha
  refine ⟨hq, ?_, ?_⟩
  · exact (mem_qualifying m mr _ _ _ _).mpr
      ⟨⟨_, pixel_mem_windowCoords _ r c hd, m.data r c, at_pixel m r c hr hc, rfl⟩, hq⟩
  · intro y hy
    obtain ⟨⟨p, hp, w, hw, rfl⟩, _⟩ := (mem_qualifying m mr _ _ _ y).mp hy
    rw [hval]
    exact castInt_le_castInt w v (hmax p hp w hw) hv0

/-- C5: let the pixels of the list `S` each hold the same non-negative value
`v ≥ minResponse`, each with its window inside the matrix and with `v` the
maximum value of that window.  Then the loop body pushes a keypoint for every
pixel of `S`; a run that returns contains the keypoint of every pixel of `S`,
and distinct pixels of `S` have distinct keypoints: ties do not suppress. -/
theorem C5_ties_all_emitted (m : Mat) (a mr : Int) (v : ℚ) (S : List (Nat × Nat))
    (ha : 0 ≤ a) (hv0 : 0 ≤ v) (hv : (mr : ℚ) ≤ v)
    (hS : ∀ p ∈ S, p.1 < m.rows ∧ p.2 < m.cols ∧ m.data p.1 p.2 = v
      ∧ windowInside m (window_dist a) p.1 p.2
      ∧ ∀ q ∈ windowCoords (window_dist a) p.1 p.2, ∀ w, m.at q.1 q.2 = some w → w ≤ v) :
    (∀ p ∈ S, ∀ kps, pixelBody m a mr kps p.1 p.2
        = some (kps ++ [newKeyPoint a p.1 p.2 (castInt v)]))
    ∧ (∀ out, harrisNMS m a mr [] = some out →
        ∀ p ∈ S, newKeyPoint a p.1 p.2 (castInt v) ∈ out)
    ∧ (S.Nodup → (S.map (fun p => newKeyPoint a p.1 p.2 (castInt v))).Nodup) := by
  have hemit : ∀ p ∈ S, pixelEmit m a mr p.1 p.2
      = some [newKeyPoint a p.1 p.2 (castInt v)] := by
    intro p hp
    obtain ⟨hr, hc, hval, hin, hmax⟩ := hS p hp
    have hcond := plateau_cond m a mr p.1 p.2 v hv0 hv hr hc hval ha hmax
    rw [pixelEmit_inside_cases m a mr p.1 p.2 ha hr hc (by rw [hval]; exact hv0) hin,
      if_pos hcond, hval]
  refine ⟨?_, ?_, ?_⟩
  · intro p hp kps
    exact pixelBody_of_pixelEmit m a mr kps p.1 p.2 _ (hemit p hp)
  · intro out hout p hp
    obtain ⟨hdef, hnew, _⟩ := harrisNMS_new m a mr [] out hout
    rw [List.nil_append] at hnew
    subst hnew
    exact (mem_emitList_iff m a mr hdef _).mpr
      ⟨p.1, (hS p hp).1, p.2, (hS p hp).2.1, hemit p hp⟩
  · intro hnd
    refine List.Nodup.map ?_ hnd
    intro p1 p2 heq
    simp only [newKeyPoint, KeyPoint.mk.injEq] at heq
    obtain ⟨h1, h2, _⟩ := heq
    exact Prod.ext (by exact_mod_cast h2) (by exact_mod_cast h1)

theorem twoPeakMat_le (rows cols r1 c1 r2 c2 : Nat) (v1 v2 b : ℚ) (h1 : v1 ≤ b) (h2 : v2 ≤ b)
    (h0 : 0 ≤ b) : ∀ i j, (twoPeakMat rows cols r1 c1 v1 r2 c2 v2).data i j ≤ b := by
  intro i j
  unfold twoPeakMat
  simp only
  split
  · exact h1
  · split
    · exact h2
    · exact h0

/-- C5, at the 7 × 8 matrix with 150 at the adjacent pixels (3,3) and (3,4)
and `minResponse = 100`: the run returns both keypoints. -/
theorem C5_ties_all_emitted_witness :
    harrisNMS plateau 3 100 [] = some [newKeyPoint 3 3 3 150, newKeyPoint 3 3 4 150]
    ∧ (∀ p ∈ [((3 : Nat), (3 : Nat)), (3, 4)],
        newKeyPoint 3 p.1 p.2 (castInt 150)
          ∈ [newKeyPoint 3 3 3 150, newKeyPoint 3 3 4 150])
    ∧ (∀ p ∈ [((3 : Nat), (3 : Nat)), (3, 4)], ∀ kps, pixelBody plateau 3 100 kps p.1 p.2
        = some (kps ++ [newKeyPoint 3 p.1 p.2 (castInt 150)])) :=
  have hS : ∀ p ∈ [((3 : Nat), (3 : Nat)), (3, 4)],
      p.1 < plateau.rows ∧ p.2 < plateau.cols ∧ plateau.data p.1 p.2 = 150
      ∧ windowInside plateau (window_dist 3) p.1 p.2
      ∧ ∀ q ∈ windowCoords (window_dist 3) p.1 p.2, ∀ w,
          plateau.at q.1 q.2 = some w → w ≤ 150 := by
    intro p hp
    have hle : ∀ q : Int × Int, ∀ w, plateau.at q.1 q.2 = some w → w ≤ 150 := by
      intro q w hw
      rw [(at_eq_some plateau _ _ w hw).2]
      exact twoPeakMat_le 7 8 3 3 3 4 150 150 150 (le_refl _) (le_refl _) (by norm_num) _ _
    simp only [List.mem_cons, List.mem_singleton, List.not_mem_nil, or_false] at hp
    rcases hp with rfl | rfl
    · exact ⟨by decide, by decide, by decide, by decide, fun q _ => hle q⟩
    · exact ⟨by decide, by decide, by decide, by decide, fun q _ => hle q⟩
  have h := C5_ties_all_emitted plateau 3 100 150 [(3, 3), (3, 4)] (by decide) (by norm_num)
    (by norm_num) hS
  ⟨by decide, h.2.1 _ (by decide), h.1⟩

/-! ## C6: raising the threshold -/

/-- A centre value that equals the running maximum for the threshold `mr2`
also equals it for every lower threshold `mr1`. -/
theorem foldMax_lower_threshold (mr1 mr2 : Int) (vals : List Int) (cur : Int)
    (hle : mr1 ≤ mr2) (hq : mr2 ≤ cur) (h : cur = vals.foldl (maxStep mr2) 0) :
    cur = vals.foldl (maxStep mr1) 0 := by
  have a1 := foldMax_ge_init mr1 vals 0
  have a2 := foldMax_ge_init mr2 vals 0
  apply le_antisymm
  · rcases foldMax_attained mr2 vals 0 with h2 | ⟨h2, h3⟩
    · omega
    · have := foldMax_ge_mem mr1 vals 0 _ h2 (by omega)
      omega
  · rcases foldMax_attained mr1 vals 0 with h1 | ⟨h1, h3⟩
    · omega
    · by_cases hb : mr2 ≤ vals.foldl (maxStep mr1) 0
      · have := foldMax_ge_mem mr2 vals 0 _ h1 hb
        omega
      · omega

/-- Pixel by pixel, a higher threshold runs whenever the lower one does and
pushes nothing the lower one does not push. -/
theorem pixelEmit_threshold (m : Mat) (a mr1 mr2 : Int) (hle : mr1 ≤ mr2) (r c : Nat)
    (hr : r < m.rows) (hc : c < m.cols) (l1 : List KeyPoint)
    (h1 : pixelEmit m a mr1 r c = some l1) :
    ∃ l2, pixelEmit m a mr2 r c = some l2 ∧ l2.Sublist l1 := by
  by_cases hb : castInt (m.data r c) < mr2
  · exact ⟨[], pixelEmit_below m a mr2 r c hr hc hb, List.nil_sublist _⟩
  · have hq1 : ¬ castInt (m.data r c) < mr1 := by omega
    rw [pixelEmit_eq m a mr1 r c hr hc, if_neg hq1] at h1
    cases hw : windowScan m mr1 (window_dist a) r c 0 with
    | none => rw [hw] at h1; cases h1
    | some mx =>
      rw [hw, Option.some_bind] at h1
      obtain ⟨hall, hmx⟩ := windowScan_eq_some m mr1 _ _ _ mx hw
      have hw2 : windowScan m mr2 (window_dist a) r c 0
          = some (windowMax m mr2 (window_dist a) r c) := by
        rw [windowScan_eq_coords]
        exact coords_fold_some m mr2 _ 0 hall
      rw [pixelEmit_eq m a mr2 r c hr hc, if_neg hb, hw2, Option.some_bind]
      by_cases he : castInt (m.data r c) = windowMax m mr2 (window_dist a) r c
      · rw [if_pos he]
        have he1 : castInt (m.data r c) = mx := by
          rw [hmx]
          exact foldMax_lower_threshold mr1 mr2 _ _ hle (by omega) he
        rw [if_pos he1] at h1
        exact ⟨_, rfl, by rw [← Option.some.inj h1]⟩
      · rw [if_neg he]
        exact ⟨[], rfl, List.nil_sublist _⟩

theorem flatMap_sublist {α β : Type} (l : List α) (f g : α → List β)
    (h : ∀ x ∈ l, (f x).Sublist (g x)) : (l.flatMap f).Sublist (l.flatMap g) := by
  induction l with
  | nil => exact List.Sublist.refl _
  | cons x xs ih =>
    rw [List.flatMap_cons, List.flatMap_cons]
    exact List.Sublist.append (h x (List.mem_cons_self _ _))
      (ih (fun y hy => h y (List.mem_cons_of_mem _ hy)))

/-- C6: when the run with threshold `m` returns, the run with any threshold
`m' ≥ m` on the same matrix and vector returns too, its output is no longer
than the first one, and it is a subsequence of it: raising `minResponse` only
removes keypoints. -/
theorem C6_threshold_monotone (dst_norm : Mat) (a m m' : Int) (kps out : List KeyPoint)
    (hle : m ≤ m') (h : harrisNMS dst_norm a m kps = some out) :
    ∃ out', harrisNMS dst_norm a m' kps = some out'
      ∧ out'.length ≤ out.length ∧ out'.Sublist out := by
  obtain ⟨hdef, hout⟩ := (harrisNMS_eq_some_iff dst_norm a m kps out).mp h
  have hpix : ∀ r, r < dst_norm.rows → ∀ c, c < dst_norm.cols →
      ∃ l1 l2, pixelEmit dst_norm a m r c = some l1 ∧ pixelEmit dst_norm a m' r c = some l2
        ∧ l2.Sublist l1 := by
    intro r hr c hc
    obtain ⟨l1, hl1⟩ := Option.isSome_iff_exists.mp (hdef r hr c hc)
    obtain ⟨l2, hl2, hsub⟩ := pixelEmit_threshold dst_norm a m m' hle r c hr hc l1 hl1
    exact ⟨l1, l2, hl1, hl2, hsub⟩
  have hdef' : runDefined dst_norm a m' := by
    intro r hr c hc
    obtain ⟨_, l2, _, hl2, _⟩ := hpix r hr c hc
    rw [hl2]; rfl
  have hsub : (emitList dst_norm a m').Sublist (emitList dst_norm a m) := by
    unfold emitList
    apply flatMap_sublist
    intro r hr
    apply flatMap_sublist
    intro c hc
    obtain ⟨l1, l2, hl1, hl2, hs⟩ := hpix r (List.mem_range.mp hr) c (List.mem_range.mp hc)
    rw [hl1, hl2]
    exact hs
  have hall : (kps ++ emitList dst_norm a m').Sublist out := by
    rw [hout]
    exact List.Sublist.append (List.Sublist.refl _) hsub
  exact ⟨_, (harrisNMS_eq_some_iff dst_norm a m' kps _).mpr ⟨hdef', rfl⟩,
    hall.length_le, hall⟩

/-- C6, at the 7 × 8 matrix with 150 at (3,3) and (3,4): thresholds 100 and
151 give two keypoints and none. -/
theorem C6_threshold_monotone_witness :
    harrisNMS plateau 3 100 [] = some [newKeyPoint 3 3 3 150, newKeyPoint 3 3 4 150]
    ∧ harrisNMS plateau 3 151 [] = some []
    ∧ ∃ out', harrisNMS plateau 3 151 [] = some out'
      ∧ out'.length ≤ [newKeyPoint 3 3 3 150, newKeyPoint 3 3 4 150].length
      ∧ out'.Sublist [newKeyPoint 3 3 3 150, newKeyPoint 3 3 4 150] :=
  ⟨by decide, by decide,
    C6_threshold_monotone plateau 3 100 151 [] _ (by decide) (by decide)⟩

/-! ## C7: a single isolated peak -/

theorem flatMap_range_single {β : Type} (n i0 : Nat) (f : Nat → List β) (hi : i0 < n)
    (h : ∀ i, i < n → i ≠ i0 → f i = []) : (List.range n).flatMap f = f i0 := by
  induction n with
  | zero => omega
  | succ n ih =>
    rw [List.range_succ, List.flatMap_append]
    simp only [List.flatMap_cons, List.flatMap_nil, List.append_nil]
    by_cases he : i0 = n
    · subst he
      have hnil : (List.range i0).flatMap f = [] := by
        simp only [List.flatMap_eq_nil_iff, List.mem_range]
        intro i hlt
        exact h i (by omega) (by omega)
      rw [hnil, List.nil_append]
    · rw [ih (by omega) (fun i hlt hne => h i (by omega) hne), h n (by omega) (Ne.symm he),
        List.append_nil]

/-- C7 (amended): for a matrix that is 0 everywhere except pixel `(r0, c0)`,
which holds `v`, with the window of half-width 3 around `(r0, c0)` inside the
matrix and `1 ≤ minResponse ≤ v`, the run with `apertureSize = 3` on an empty
vector returns exactly one keypoint: at `(r0, c0)`, of size 6, with response
`v` truncated to an integer. -/
theorem C7_single_peak_inside (rows cols r0 c0 : Nat) (v : ℚ) (mr : Int)
    (hmr : 1 ≤ mr) (hv : (mr : ℚ) ≤ v)
    (hin : windowInside (peakMat rows cols r0 c0 v) (window_dist 3) r0 c0) :
    harrisNMS (peakMat rows cols r0 c0 v) 3 mr []
      = some [{ x := c0, y := r0, size := 6, response := castInt v }] := by
  have hv0 : 0 ≤ v := by
    have h1 : (1 : ℚ) ≤ (mr : ℚ) := by exact_mod_cast hmr
    linarith
  have hd : window_dist 3 = 3 := window_dist_eq 3
  have hr0 : r0 < (peakMat rows cols r0 c0 v).rows := by
    unfold windowInside at hin; rw [hd] at hin; omega
  have hc0 : c0 < (peakMat rows cols r0 c0 v).cols := by
    unfold windowInside at hin; rw [hd] at hin; omega
  have hdata0 : (peakMat rows cols r0 c0 v).data r0 c0 = v := by simp [peakMat]
  have hpeak : pixelEmit (peakMat rows cols r0 c0 v) 3 mr r0 c0
      = some [newKeyPoint 3 r0 c0 (castInt v)] := by
    have hmax : ∀ q ∈ windowCoords (window_dist 3) r0 c0, ∀ w,
        (peakMat rows cols r0 c0 v).at q.1 q.2 = some w → w ≤ v := by
      intro q _ w hw
      rw [(at_eq_some _ _ _ w hw).2]
      unfold peakMat
      simp only
      split
      · exact le_refl _
      · exact hv0
    have hcond := plateau_cond (peakMat rows cols r0 c0 v) 3 mr r0 c0 v hv0 hv hr0 hc0 hdata0
      (by decide) hmax
    rw [pixelEmit_inside_cases _ 3 mr r0 c0 (by decide) hr0 hc0 (by rw [hdata0]; exact hv0) hin,
      if_pos hcond, hdata0]
  have hother : ∀ r, r < rows → ∀ c, c < cols → ¬ (r = r0 ∧ c = c0) →
      pixelEmit (peakMat rows cols r0 c0 v) 3 mr r c = some [] := by
    intro r hr c hc hne
    apply pixelEmit_below _ 3 mr r c hr hc
    have : (peakMat rows cols r0 c0 v).data r c = 0 := by simp [peakMat, hne]
    rw [this]
    have : castInt 0 = 0 := by decide
    omega
  rw [harrisNMS_eq_some_iff]
  constructor
  · intro r hr c hc
    by_cases he : r = r0 ∧ c = c0
    · obtain ⟨rfl, rfl⟩ := he
      rw [hpeak]; rfl
    · rw [hother r hr c hc he]; rfl
  · rw [List.nil_append]
    unfold emitList
    have hrow0 : (List.range (peakMat rows cols r0 c0 v).cols).flatMap
        (fun c => (pixelEmit (peakMat rows cols r0 c0 v) 3 mr r0 c).getD [])
          = [newKeyPoint 3 r0 c0 (castInt v)] := by
      rw [flatMap_range_single _ c0 _ hc0]
      · rw [hpeak]; rfl
      · intro c hc hne
        rw [hother r0 hr0 c hc (fun h => hne h.2)]; rfl
    rw [flatMap_range_single _ r0 _ hr0]
    · rw [hrow0]; rfl
    · intro r hr hne
      simp only [List.flatMap_eq_nil_iff, List.mem_range]
      intro c hc
      rw [hother r hr c hc (fun h => hne h.1)]; rfl

/-- C7 (amended), at the 7 × 7 matrix with 200 at (3,3) and
`minResponse = 100`: one keypoint, at (3,3), with response 200. -/
theorem C7_single_peak_inside_witness :
    windowInside (peakMat 7 7 3 3 200) (window_dist 3) (3 : Nat) (3 : Nat)
    ∧ harrisNMS (peakMat 7 7 3 3 200) 3 100 []
      = some [{ x := 3, y := 3, size := 6, response := castInt 200 }]
    ∧ castInt 200 = 200 :=
  ⟨by decide, C7_single_peak_inside 7 7 3 3 200 100 (by decide) (by norm_num) (by decide),
    by decide⟩

/-- C7 as stated fails twice.  Its own example, the 5 × 5 matrix with 200 at
(2,2) and `minResponse = 100`, does not give one keypoint: the window of (2,2)
reaches row and column -1 and 5 and the run reads out of range.  And where the
window is inside the matrix (7 × 7, peak 200.5 at (3,3)) the one keypoint has
response 200, not the value 200.5 held by the pixel. -/
theorem C7_counterexample_border_and_fraction :
    ¬ windowInside (peakMat 5 5 2 2 200) (window_dist 3) (2 : Nat) (2 : Nat)
    ∧ detKeypointsHarris [] (peakMat 5 5 2 2 200) = none
    ∧ harrisNMS (peakMat 5 5 2 2 200) 3 100 [] = none
    ∧ harrisNMS (peakMat 7 7 3 3 (mkRat 401 2)) 3 100 []
        = some [{ x := 3, y := 3, size := 6, response := 200 }]
    ∧ ((200 : Int) : ℚ) ≠ mkRat 401 2 := by
  decide

/-! ## C9: determinism and scan order -/

theorem pixelEmit_getD_pos (m : Mat) (a mr : Int) (r c : Nat) (kp : KeyPoint)
    (h : kp ∈ (pixelEmit m a mr r c).getD []) : kp.x = c ∧ kp.y = r := by
  unfold pixelEmit pixelBody at h
  cases hv : m.at (r : Int) (c : Int) with
  | none => rw [hv] at h; cases h
  | some v =>
    rw [hv] at h
    simp only at h
    split at h
    · cases h
    · cases hw : windowScan m mr (window_dist a) r c 0 with
      | none => rw [hw] at h; cases h
      | some mx =>
        rw [hw] at h
        simp only at h
        split at h
        · simp only [List.nil_append, Option.getD_some, List.mem_singleton] at h
          subst h
          exact ⟨rfl, rfl⟩
        · cases h

theorem pixelEmit_getD_length (m : Mat) (a mr : Int) (r c : Nat) :
    (pixelEmit m a mr r c).getD [] = []
      ∨ ∃ kp, (pixelEmit m a mr r c).getD [] = [kp] := by
  unfold pixelEmit pixelBody
  cases m.at (r : Int) (c : Int) with
  | none => exact Or.inl rfl
  | some v =>
    simp only
    split
    · exact Or.inl rfl
    · cases windowScan m mr (window_dist a) r c 0 with
      | none => exact Or.inl rfl
      | some mx =>
        simp only
        split
        · exact Or.inr ⟨_, rfl⟩
        · exact Or.inl rfl

/-- The appended keypoints are in row-major order. -/
theorem emitList_pairwise (m : Mat) (a mr : Int) :
    (emitList m a mr).Pairwise (fun k1 k2 => k1.y < k2.y ∨ (k1.y = k2.y ∧ k1.x < k2.x)) := by
  unfold emitList
  rw [List.pairwise_flatMap]
  constructor
  · intro r _
    rw [List.pairwise_flatMap]
    constructor
    · intro c _
      rcases pixelEmit_getD_length m a mr r c with h | ⟨kp, h⟩
      · rw [h]; exact List.Pairwise.nil
      · rw [h]; exact List.pairwise_singleton _ _
    · refine List.Pairwise.imp ?_ (List.pairwise_lt_range m.cols)
      intro c1 c2 hlt k1 hk1 k2 hk2
      obtain ⟨hx1, hy1⟩ := pixelEmit_getD_pos m a mr r c1 k1 hk1
      obtain ⟨hx2, hy2⟩ := pixelEmit_getD_pos m a mr r c2 k2 hk2
      right
      omega
  · refine List.Pairwise.imp ?_ (List.pairwise_lt_range m.rows)
    intro r1 r2 hlt k1 hk1 k2 hk2
    obtain ⟨c1, _, hk1⟩ := List.mem_flatMap.mp hk1
    obtain ⟨c2, _, hk2⟩ := List.mem_flatMap.mp hk2
    obtain ⟨_, hy1⟩ := pixelEmit_getD_pos m a mr r1 c1 k1 hk1
    obtain ⟨_, hy2⟩ := pixelEmit_getD_pos m a mr r2 c2 k2 hk2
    left
    omega

/-- C9: two runs on the same matrix with the same parameters, each on an empty
vector, return the same sequence; the sequence is in row-major scan order
(strictly increasing by row and, within a row, by column), so no pixel
position occurs twice. -/
theorem C9_deterministic_row_major (m : Mat) (a mr : Int) (out1 out2 : List KeyPoint)
    (h1 : harrisNMS m a mr [] = some out1) (h2 : harrisNMS m a mr [] = some out2) :
    out1 = out2
    ∧ out1.Pairwise (fun k1 k2 => k1.y < k2.y ∨ (k1.y = k2.y ∧ k1.x < k2.x))
    ∧ (out1.map (fun k => (k.y, k.x))).Nodup := by
  have hord : out1.Pairwise (fun k1 k2 => k1.y < k2.y ∨ (k1.y = k2.y ∧ k1.x < k2.x)) := by
    obtain ⟨_, hnew, _⟩ := harrisNMS_new m a mr [] out1 h1
    rw [List.nil_append] at hnew
    rw [hnew]
    exact emitList_pairwise m a mr
  refine ⟨Option.some.inj (h1.symm.trans h2), hord, ?_⟩
  unfold List.Nodup
  rw [List.pairwise_map]
  refine List.Pairwise.imp ?_ hord
  intro k1 k2 hlt heq
  simp only [Prod.mk.injEq] at heq
  omega

/-- C9, at the 7 × 8 matrix with 150 at (3,3) and (3,4): the run returns the
keypoint of (3,3) before that of (3,4). -/
theorem C9_deterministic_row_major_witness :
    harrisNMS plateau 3 100 [] = some [newKeyPoint 3 3 3 150, newKeyPoint 3 3 4 150]
    ∧ [newKeyPoint 3 3 3 150, newKeyPoint 3 3 4 150].Pairwise
        (fun k1 k2 => k1.y < k2.y ∨ (k1.y = k2.y ∧ k1.x < k2.x)) :=
  ⟨by decide,
    (C9_deterministic_row_major plateau 3 100 [newKeyPoint 3 3 3 150, newKeyPoint 3 3 4 150]
      [newKeyPoint 3 3 3 150, newKeyPoint 3 3 4 150] (by decide) (by decide)).2.1⟩

/-! ## C10: the caller's vector -/

/-- C10: when `detKeypointsHarris` returns, the vector on return is the vector
on entry, unchanged and in the same order, followed by the keypoints of this
run (those a run on an empty vector returns); a second call on the result
appends the same keypoints once more. -/
theorem C10_only_appends (keypoints out : List KeyPoint) (dst_norm : Mat)
    (h : detKeypointsHarris keypoints dst_norm = some out) :
    ∃ new, out = keypoints ++ new
      ∧ detKeypointsHarris [] dst_norm = some new
      ∧ detKeypointsHarris out dst_norm = some (keypoints ++ new ++ new) := by
  unfold detKeypointsHarris at h ⊢
  obtain ⟨hdef, hout, hnew⟩ := harrisNMS_new dst_norm 3 100 keypoints out h
  refine ⟨emitList dst_norm 3 100, hout, hnew, ?_⟩
  rw [harrisNMS_eq_some_iff]
  exact ⟨hdef, by rw [hout]⟩

/-- C10, at the 7 × 7 matrix with 200 at (3,3) and a vector holding one earlier
keypoint: the call returns the earlier keypoint followed by the new one. -/
theorem C10_only_appends_witness :
    detKeypointsHarris [{ x := 9, y := 9, size := 4, response := 0 }] (peakMat 7 7 3 3 200)
      = some [{ x := 9, y := 9, size := 4, response := 0 },
              { x := 3, y := 3, size := 6, response := 200 }]
    ∧ ∃ new, [({ x := 9, y := 9, size := 4, response := 0 } : KeyPoint),
              { x := 3, y := 3, size := 6, response := 200 }]
        = [{ x := 9, y := 9, size := 4, response := 0 }] ++ new
      ∧ detKeypointsHarris [] (peakMat 7 7 3 3 200) = some new
      ∧ detKeypointsHarris [{ x := 9, y := 9, size := 4, response := 0 },
              { x := 3, y := 3, size := 6, response := 200 }] (peakMat 7 7 3 3 200)
          = some ([{ x := 9, y := 9, size := 4, response := 0 }] ++ new ++ new) :=
  ⟨by decide, C10_only_appends _ _ (peakMat 7 7 3 3 200) (by decide)⟩

/-! ## When the run returns -/

/-- X1: for `apertureSize ≥ 0` the loop returns (performs no out-of-range read)
exactly when every pixel whose truncated value is at least `minResponse` has
its whole window inside the matrix. -/
theorem X1_run_returns_iff (m : Mat) (a mr : Int) (kps : List KeyPoint) (ha : 0 ≤ a) :
    (harrisNMS m a mr kps).isSome = true
      ↔ ∀ r c : Nat, r < m.rows → c < m.cols → mr ≤ castInt (m.data r c) →
          windowInside m (window_dist a) r c := by
  have hd : 0 ≤ window_dist a := by rw [window_dist_eq]; exact ha
  constructor
  · intro h r c hr hc hq
    obtain ⟨out, hout⟩ := Option.isSome_iff_exists.mp h
    obtain ⟨hdef, _⟩ := (harrisNMS_eq_some_iff m a mr kps out).mp hout
    by_contra hout2
    have := hdef r hr c hc
    rw [pixelEmit_outside m a mr r c hr hc hq hd hout2] at this
    cases this
  · intro h
    have hdef : runDefined m a mr := by
      intro r hr c hc
      by_cases hq : mr ≤ castInt (m.data r c)
      · rw [pixelEmit_inside m a mr r c hr hc hq (h r c hr hc hq)]
        split <;> rfl
      · rw [pixelEmit_below m a mr r c hr hc (by omega)]
        rfl
    rw [(harrisNMS_eq_some_iff m a mr kps _).mpr ⟨hdef, rfl⟩]
    rfl

/-- X1, at the 5 × 5 matrix with 200 at (2,2): the run does not return, and
pixel (2,2) is at or above the threshold with a window that leaves the
matrix. -/
theorem X1_run_returns_iff_witness :
    (harrisNMS (peakMat 5 5 2 2 200) 3 100 []).isSome = false
    ∧ ((harrisNMS (peakMat 5 5 2 2 200) 3 100 []).isSome = true
      ↔ ∀ r c : Nat, r < (peakMat 5 5 2 2 200).rows → c < (peakMat 5 5 2 2 200).cols →
          (100 : Int) ≤ castInt ((peakMat 5 5 2 2 200).data r c) →
          windowInside (peakMat 5 5 2 2 200) (window_dist 3) r c) :=
  ⟨by decide, X1_run_returns_iff (peakMat 5 5 2 2 200) 3 100 [] (by decide)⟩

end Harris
